import Mathlib

/-!
Verification of the Qwen3-VL embedding service (`services/embeddings/server.py`).

Strings are modelled as lists of characters, tensors of hidden states as
lists of rows over `ℝ` (float arithmetic is modelled by exact real
arithmetic), and the pretrained model forward pass is an explicit function
parameter (an external collaborator producing hidden states and an
attention mask).  Fallible operations return `Except`.
-/

set_option maxRecDepth 10000

abbrev Str := List Char

/-- Configuration constants from the top of the server module. -/
def MAX_LENGTH : Nat := 8192

def IMAGE_BASE_FACTOR : Nat := 16

def IMAGE_FACTOR : Nat := IMAGE_BASE_FACTOR * 2

def MIN_PIXELS : Nat := 4 * IMAGE_FACTOR * IMAGE_FACTOR

def MAX_PIXELS : Nat := 1800 * IMAGE_FACTOR * IMAGE_FACTOR

def DEFAULT_INSTRUCTION : Str := "Represent the input for retrieval.".toList

/-- The scheme markers the server compares image strings against. -/
def dataScheme : Str := "data:".toList

def httpScheme : Str := "http://".toList

def httpsScheme : Str := "https://".toList

def fileScheme : Str := "file://".toList

/-- Python `s.startswith(p)`, on character lists (first argument: the
candidate marker, second: the string). -/
def startsWithL : Str → Str → Bool
  | [], _ => true
  | _ :: _, [] => false
  | p :: ps, c :: cs => p == c && startsWithL ps cs

/-- The remainder of `l` after the first occurrence of `ch`; `none` when
`ch` does not occur.  This is Python `l.split(ch, 1)[1]`, whose indexing
raises when there is no separator. -/
def afterChar (ch : Char) : Str → Option Str
  | [] => none
  | c :: cs => if c = ch then some cs else afterChar ch cs

/-- An image value inside the Python process: either a decoded in-memory
`PIL.Image` (represented by the base64 payload it was decoded from,
decoding itself being a third-party library call) or a plain string
reference handed to the processor. -/
inductive PyImage where
  | pil (payload : Str)
  | strRef (s : Str)
deriving DecidableEq

/-- `Qwen3VLEmbedder._decode_base64_image`: strip a `data:` header up to
the first comma when present, then base64-decode and open as an RGB
image.  A `data:` string without a comma raises an `IndexError` at
`data.split(",", 1)[1]`. -/
def decode_base64_image (data : Str) : Except String PyImage :=
  if startsWithL dataScheme data then
    match afterChar ',' data with
    | some payload => .ok (.pil payload)
    | none => .error "IndexError: list index out of range"
  else .ok (.pil data)

/-- The image-classification step of `Qwen3VLEmbedder.embed` (lines
302-310): decode when the string is a data URL, or when it is longer than
500 characters and carries no URL/file scheme; otherwise pass the string
through. -/
def resolveImage (s : Str) : Except String PyImage :=
  if startsWithL dataScheme s
      ∨ (¬(startsWithL httpScheme s ∨ startsWithL httpsScheme s ∨ startsWithL fileScheme s)
          ∧ 500 < s.length) then
    decode_base64_image s
  else
    .ok (.strRef s)

/-- Python truthiness of the optional `image` field in `embed`
(`if image_data:`): absent and empty strings are falsy. -/
def resolveImageField (image_data : Option Str) : Except String (Option PyImage) :=
  match image_data with
  | none => .ok none
  | some s => if s.isEmpty then .ok none else (resolveImage s).map (fun i => some i)

/-- The image dispatch inside `format_model_input` (lines 184-193): a PIL
image is used as is; a string is passed through when it starts with an
HTTP(S) scheme and is otherwise prefixed with `file://`. -/
def formatImage : PyImage → PyImage
  | .pil p => .pil p
  | .strRef s =>
      if startsWithL httpScheme s || startsWithL httpsScheme s then .strRef s
      else .strRef (fileScheme ++ s)

/-- The characters stripped by Python `str.strip()`: exactly those for
which `str.isspace()` holds (ASCII whitespace, the information
separators 1C-1F, NEL, NBSP, Ogham space mark, the U+2000-200A spaces,
line/paragraph separators, narrow NBSP, medium mathematical space, and
the ideographic space). -/
def isSpaceChar (c : Char) : Bool :=
  c == ' ' || c == '\t' || c == '\n' || c == '\r' || c == '\x0b' || c == '\x0c'
    || c == '\x1c' || c == '\x1d' || c == '\x1e' || c == '\x1f'
    || c == '\x85' || c == '\xa0' || c == '\u1680'
    || c == '\u2000' || c == '\u2001' || c == '\u2002' || c == '\u2003' || c == '\u2004'
    || c == '\u2005' || c == '\u2006' || c == '\u2007' || c == '\u2008' || c == '\u2009'
    || c == '\u200a' || c == '\u2028' || c == '\u2029' || c == '\u202f' || c == '\u205f'
    || c == '\u3000'

/-- Python `s.strip()`: drop whitespace from both ends. -/
def pyStrip (l : Str) : Str :=
  ((l.dropWhile isSpaceChar).reverse.dropWhile isSpaceChar).reverse

/-- The period-appending step of `format_model_input` (line 171-172):
when the string is non-empty and its last character is not punctuation
(`isPunct` stands for `unicodedata.category(c).startswith("P")`, an
external library predicate), append `"."`. -/
def appendPeriod (isPunct : Char → Bool) (t : Str) : Str :=
  match t.getLast? with
  | none => t
  | some c => if isPunct c then t else t ++ ['.']

/-- Instruction normalization in `format_model_input` (lines 170-172):
strip, then append a period unless the last character is punctuation. -/
def processInstruction (isPunct : Char → Bool) (l : Str) : Str :=
  appendPeriod isPunct (pyStrip l)

/-- One entry of a conversation `content` list. -/
inductive ContentBlock where
  | text (s : Str)
  | image (content : PyImage) (minPixels maxPixels : Nat)
deriving DecidableEq

/-- One role-tagged block of a conversation. -/
structure RoleBlock where
  role : Str
  content : List ContentBlock
deriving DecidableEq

def systemRole : Str := "system".toList

def userRole : Str := "user".toList

def nullText : Str := "NULL".toList

/-- Truthiness of the optional `text` argument (`if not text`). -/
def optTextTruthy : Option Str → Bool
  | none => false
  | some l => !l.isEmpty

/-- Truthiness of an image value: a PIL image object is truthy, a string
is truthy when non-empty. -/
def pyImageTruthy : PyImage → Bool
  | .pil _ => true
  | .strRef s => !s.isEmpty

def optImageTruthy : Option PyImage → Bool
  | none => false
  | some i => pyImageTruthy i

/-- `Qwen3VLEmbedder.format_model_input` (lines 162-205): normalize the
instruction (an absent or empty instruction falls back to the default),
then assemble the two-role conversation.  With neither text nor image the
user content is the single literal `"NULL"` block; otherwise the image
block (resolution bounds attached) precedes the text block. -/
def format_model_input (isPunct : Char → Bool) (text : Option Str) (image : Option PyImage)
    (instruction : Option Str) : List RoleBlock :=
  let ins0 : Str :=
    match instruction with
    | none => DEFAULT_INSTRUCTION
    | some i => if i.isEmpty then DEFAULT_INSTRUCTION else i
  let ins := processInstruction isPunct ins0
  if optTextTruthy text = false ∧ optImageTruthy image = false then
    [⟨systemRole, [.text ins]⟩, ⟨userRole, [.text nullText]⟩]
  else
    let imgBlocks : List ContentBlock :=
      match image with
      | some i =>
          if pyImageTruthy i then [.image (formatImage i) MIN_PIXELS MAX_PIXELS] else []
      | none => []
    let txtBlocks : List ContentBlock :=
      match text with
      | some t => if t.isEmpty then [] else [.text t]
      | none => []
    [⟨systemRole, [.text ins]⟩, ⟨userRole, imgBlocks ++ txtBlocks⟩]

/-- The accumulator loop behind `torch.argmax`: index of the first
maximal element, tracking position, best index and best value. -/
def argmaxAux : List Nat → Nat → Nat → Nat → Nat
  | [], _, bi, _ => bi
  | x :: xs, i, bi, bv =>
      if bv < x then argmaxAux xs (i + 1) i x else argmaxAux xs (i + 1) bi bv

/-- `torch.argmax` along a one-dimensional mask row: the index of the
first occurrence of the maximum. -/
def torchArgmax : List Nat → Nat
  | [] => 0
  | x :: xs => argmaxAux xs 1 0 x

/-- The column picked by `_pooling_last` for one mask row:
`attention_mask.shape[1] - argmax(flip(mask)) - 1`. -/
def poolingCol (mask : List Nat) : Nat :=
  mask.length - torchArgmax mask.reverse - 1

/-- One batch row of `_pooling_last`: the hidden-state vector of that row
at the selected column. -/
def poolingLastRow {α : Type} (d : α) (hidden : List α) (mask : List Nat) : α :=
  hidden.getD (poolingCol mask) d

/-- `Qwen3VLEmbedder._pooling_last` (lines 253-260): for each batch row,
index the hidden states at the last-valid column of that row's mask. -/
def pooling_last (hidden : List (List (List ℝ))) (mask : List (List Nat)) : List (List ℝ) :=
  List.zipWith (poolingLastRow []) hidden mask

/-- The default `eps` of `torch.nn.functional.normalize`. -/
noncomputable def normEps : ℝ := 1 / 10 ^ 12

/-- Euclidean norm of a vector, as used by `F.normalize(p=2, dim=-1)`. -/
noncomputable def l2norm (v : List ℝ) : ℝ :=
  Real.sqrt (v.map (fun x => x ^ 2)).sum

/-- `F.normalize(v, p=2, dim=-1)`: divide each component by the norm
clamped from below by `eps`. -/
noncomputable def fNormalize (v : List ℝ) : List ℝ :=
  v.map (fun x => x / max (l2norm v) normEps)

/-- Python slicing `v[:d]` for an arbitrary (possibly negative) `d`. -/
def pySliceTo {α : Type} (v : List α) (d : Int) : List α :=
  if 0 ≤ d then v.take d.toNat else v.take (v.length - (-d).toNat)

/-- The MRL truncation step of `embed` (lines 321-322):
`if dimensions and dimensions < embeddings.shape[-1]`, slice; note that
`dimensions = 0` is falsy in Python and skips the slice. -/
def truncStep {α : Type} (dims : Option Int) (v : List α) : List α :=
  match dims with
  | none => v
  | some d => if d ≠ 0 ∧ d < (v.length : Int) then pySliceTo v d else v

/-- The batch post-processing of `embed` (lines 320-326): truncate, then
normalize when requested. -/
noncomputable def postProcess (dims : Option Int) (normalize : Bool)
    (rows : List (List ℝ)) : List (List ℝ) :=
  let t := rows.map (truncStep dims)
  if normalize then t.map fNormalize else t

/-- The external model forward pass for one conversation: per-token
hidden states (batch × sequence × hidden) and the attention mask
(batch × sequence), as returned by `Qwen3VLForEmbedding.forward`. -/
abbrev ModelFn := List RoleBlock → List (List (List ℝ)) × List (List Nat)

/-- `Qwen3VLEmbedder.embed_single` (lines 262-274): format the
conversation, run the model, pool the last valid token. -/
def embed_single (isPunct : Char → Bool) (model : ModelFn)
    (text : Option Str) (image : Option PyImage) : List (List ℝ) :=
  let conversation := format_model_input isPunct text image none
  let out := model conversation
  pooling_last out.1 out.2

/-- The pydantic request item: optional text, optional image string. -/
structure EmbeddingInput where
  text : Option Str
  image : Option Str

/-- One iteration of the `embed` loop (lines 296-315): resolve the image
field, then embed; a decode failure aborts the batch. -/
def embedOne (isPunct : Char → Bool) (model : ModelFn) (inp : EmbeddingInput) :
    Except String (List (List ℝ)) :=
  (resolveImageField inp.image).map (fun image => embed_single isPunct model inp.text image)

/-- The loop plus `torch.cat(all_embeddings, dim=0)`. -/
def embedBatch (isPunct : Char → Bool) (model : ModelFn) (inputs : List EmbeddingInput) :
    Except String (List (List ℝ)) :=
  (inputs.mapM (embedOne isPunct model)).map List.flatten

/-- `Qwen3VLEmbedder.embed` (lines 276-328): per-item embedding, stack,
truncate, normalize. -/
noncomputable def embed (isPunct : Char → Bool) (model : ModelFn)
    (inputs : List EmbeddingInput) (normalize : Bool) (dims : Option Int) :
    Except String (List (List ℝ)) :=
  (embedBatch isPunct model inputs).map (postProcess dims normalize)

/-- The reply of the `POST /embed` route: either the embedding matrix
with the reported dimension count, or an HTTP error status with detail. -/
inductive HttpReply where
  | ok (rows : List (List ℝ)) (dims : Nat)
  | error (status : Nat) (detail : String)

/-- The `POST /embed` handler (lines 387-412): 503 when the model is not
loaded, 400 on an empty input list, and any exception inside
`embedder.embed` surfaces as a 500 with the exception message. -/
noncomputable def embed_route (isPunct : Char → Bool) (model : ModelFn) (loaded : Bool)
    (inputs : List EmbeddingInput) (normalize : Bool) (dims : Option Int) : HttpReply :=
  if loaded then
    if inputs.isEmpty then .error 400 "No inputs provided"
    else
      match embed isPunct model inputs normalize dims with
      | .ok rows => .ok rows ((rows.headD []).length)
      | .error msg => .error 500 msg
  else .error 503 "Model not loaded"

/-- The composite fate of a string image field: classification in `embed`
followed by the dispatch in `format_model_input` — what the image block
handed to the processor finally carries. -/
def classifyImage (s : Str) : Except String PyImage :=
  (resolveImage s).map formatImage

lemma dataScheme_eq : dataScheme = 'd' :: 'a' :: 't' :: 'a' :: ':' :: [] := rfl

lemma httpScheme_eq : httpScheme = 'h' :: 't' :: 't' :: 'p' :: ':' :: '/' :: '/' :: [] := rfl

lemma httpsScheme_eq :
    httpsScheme = 'h' :: 't' :: 't' :: 'p' :: 's' :: ':' :: '/' :: '/' :: [] := rfl

lemma fileScheme_eq : fileScheme = 'f' :: 'i' :: 'l' :: 'e' :: ':' :: '/' :: '/' :: [] := rfl

lemma startsWithL_self_append (p s : Str) : startsWithL p (p ++ s) = true := by
  induction p with
  | nil => rfl
  | cons c cs ih => simp [startsWithL, ih]

lemma startsWithL_cons_ne (a b : Char) (ps cs : Str) (h : ¬a = b) :
    startsWithL (a :: ps) (b :: cs) = false := by
  have hb : (a == b) = false := beq_eq_false_iff_ne.mpr h
  simp [startsWithL, hb]

lemma data_not_of_file (s : Str) : startsWithL dataScheme (fileScheme ++ s) = false := by
  rw [dataScheme_eq, fileScheme_eq, List.cons_append]
  exact startsWithL_cons_ne 'd' 'f' _ _ (by decide)

lemma http_not_of_file (s : Str) : startsWithL httpScheme (fileScheme ++ s) = false := by
  rw [httpScheme_eq, fileScheme_eq, List.cons_append]
  exact startsWithL_cons_ne 'h' 'f' _ _ (by decide)

lemma https_not_of_file (s : Str) : startsWithL httpsScheme (fileScheme ++ s) = false := by
  rw [httpsScheme_eq, fileScheme_eq, List.cons_append]
  exact startsWithL_cons_ne 'h' 'f' _ _ (by decide)

/-- C3: for every string image field, classification follows the priority
order data URL, HTTP(S) URL, long raw base64, local file path (the last
prefixed with `file://`). -/
theorem image_classification_priority (s : Str) :
    (startsWithL dataScheme s = true →
      ∀ payload, afterChar ',' s = some payload → classifyImage s = .ok (.pil payload))
    ∧ (startsWithL dataScheme s = false →
        (startsWithL httpScheme s = true ∨ startsWithL httpsScheme s = true) →
        classifyImage s = .ok (.strRef s))
    ∧ (startsWithL dataScheme s = false → startsWithL httpScheme s = false →
        startsWithL httpsScheme s = false → startsWithL fileScheme s = false →
        500 < s.length → classifyImage s = .ok (.pil s))
    ∧ (startsWithL dataScheme s = false → startsWithL httpScheme s = false →
        startsWithL httpsScheme s = false →
        (startsWithL fileScheme s = true ∨ s.length ≤ 500) →
        classifyImage s = .ok (.strRef (fileScheme ++ s))) := by
  refine ⟨?_, ?_, ?_, ?_⟩
  · intro hd payload hp
    simp [classifyImage, resolveImage, decode_base64_image, formatImage, Except.map, hd, hp]
  · intro hd hh
    rcases hh with hh | hh <;>
      simp [classifyImage, resolveImage, formatImage, Except.map, hd, hh]
  · intro h1 h2 h3 h4 hlen
    simp [classifyImage, resolveImage, decode_base64_image, formatImage, Except.map, h1, h2, h3, h4, hlen]
  · intro h1 h2 h3 hd
    rcases hd with hf | hlen
    · simp [classifyImage, resolveImage, formatImage, Except.map, h1, h2, h3, hf]
    · simp [classifyImage, resolveImage, formatImage, Except.map, h1, h2, h3, Nat.not_lt.mpr hlen]

theorem image_classification_priority_witness :
    classifyImage "data:image/png;base64,QUJD".toList = .ok (.pil "QUJD".toList)
    ∧ classifyImage "https://x.org/a.png".toList = .ok (.strRef "https://x.org/a.png".toList)
    ∧ classifyImage (List.replicate 501 'A') = .ok (.pil (List.replicate 501 'A'))
    ∧ classifyImage "images/cat.png".toList =
        .ok (.strRef (fileScheme ++ "images/cat.png".toList)) := by
  refine ⟨(image_classification_priority _).1 (by decide) _ (by decide),
          (image_classification_priority _).2.1 (by decide) (Or.inr (by decide)),
          (image_classification_priority _).2.2.1 (by decide) (by decide) (by decide)
            (by decide) (by decide),
          (image_classification_priority _).2.2.2 (by decide) (by decide) (by decide)
            (Or.inr (by decide))⟩

/-- C10: an image string that already carries a `file://` scheme passes
through the resolver undecoded whatever its length, and the formatter
prepends a second `file://`, so the image block carries a doubly-prefixed
reference. -/
theorem file_scheme_double_prefixed (rest : Str) (isPunct : Char → Bool) :
    resolveImage (fileScheme ++ rest) = .ok (.strRef (fileScheme ++ rest))
    ∧ classifyImage (fileScheme ++ rest) =
        .ok (.strRef (fileScheme ++ (fileScheme ++ rest)))
    ∧ format_model_input isPunct none (some (.strRef (fileScheme ++ rest))) none =
        [⟨systemRole, [.text (processInstruction isPunct DEFAULT_INSTRUCTION)]⟩,
         ⟨userRole, [.image (.strRef (fileScheme ++ (fileScheme ++ rest)))
            MIN_PIXELS MAX_PIXELS]⟩] := by
  have h1 : resolveImage (fileScheme ++ rest) = .ok (.strRef (fileScheme ++ rest)) := by
    simp [resolveImage, data_not_of_file, startsWithL_self_append]
  have h2 : formatImage (.strRef (fileScheme ++ rest)) =
      .strRef (fileScheme ++ (fileScheme ++ rest)) := by
    simp [formatImage, http_not_of_file, https_not_of_file]
  refine ⟨h1, ?_, ?_⟩
  · simp [classifyImage, Except.map, h1, h2]
  · have htr : pyImageTruthy (.strRef (fileScheme ++ rest)) = true := by
      simp [pyImageTruthy, fileScheme_eq]
    simp [format_model_input, optTextTruthy, optImageTruthy, htr, h2]

/-- C7: a `POST /embed` request with an empty inputs list gets the 400
bad-request reply (model loaded), not a server error or a crash. -/
theorem empty_inputs_bad_request (isPunct : Char → Bool) (model : ModelFn)
    (normalize : Bool) (dims : Option Int) :
    embed_route isPunct model true [] normalize dims = .error 400 "No inputs provided" := rfl

/-- C8: truncation is idempotent — a vector already truncated to `d`
components is unchanged by truncating again to `d` or to any larger
size. -/
theorem truncation_idempotent {α : Type} (v : List α) (d e : Int)
    (hd : 0 < d) (hde : d ≤ e) :
    truncStep (some e) (truncStep (some d) v) = truncStep (some d) v := by
  -- the second truncation's guard `e < length` is impossible
  have hbound : ((truncStep (some d) v).length : Int) ≤ d := by
    simp only [truncStep]
    split
    next h =>
      simp only [pySliceTo]
      rw [if_pos (le_of_lt hd)]
      rw [List.length_take]
      omega
    next h =>
      rw [not_and_or] at h
      rcases h with h | h
      · omega
      · omega
  conv_lhs => rw [truncStep]
  rw [if_neg]
  rintro ⟨-, hlt⟩
  omega

theorem truncation_idempotent_witness :
    truncStep (some 5) (truncStep (some 2) [(1 : ℝ), 2, 3]) =
      truncStep (some 2) [(1 : ℝ), 2, 3] :=
  truncation_idempotent [(1 : ℝ), 2, 3] 2 5 (by norm_num) (by norm_num)

/-- C9: the instruction is trimmed first; when the trimmed string's last
character is not punctuation a period is appended, and when it already
ends in a punctuation character it is used as trimmed. -/
theorem instruction_period_rule (isPunct : Char → Bool) (ins : Str) (c : Char)
    (h : (pyStrip ins).getLast? = some c) :
    (isPunct c = false → processInstruction isPunct ins = pyStrip ins ++ ['.'])
    ∧ (isPunct c = true → processInstruction isPunct ins = pyStrip ins) := by
  unfold processInstruction appendPeriod
  rw [h]
  constructor <;> intro hc <;> simp [hc]

theorem instruction_period_rule_witness :
    processInstruction (fun c => c == '!') " hi ".toList = "hi.".toList
    ∧ processInstruction (fun c => c == '.') " hi. \xa0".toList = "hi.".toList := by
  constructor
  · rw [(instruction_period_rule (fun c => c == '!') " hi ".toList 'i' (by decide)).1 (by decide)]
    decide
  · rw [(instruction_period_rule (fun c => c == '.') " hi. \xa0".toList '.' (by decide)).2
      (by decide)]
    decide

/-- C2 counterexample: `dimensions = 0` is provided and smaller than the
native size, yet the Python falsiness test skips the slice, so the output
is not the first 0 components. -/
theorem truncation_zero_dims_cex :
    (0 : Int) < (([(1 : ℝ), 2, 3]).length : Int)
    ∧ truncStep (some 0) [(1 : ℝ), 2, 3] ≠ ([(1 : ℝ), 2, 3]).take ((0 : Int)).toNat := by
  constructor
  · norm_num
  · have h : truncStep (some 0) [(1 : ℝ), 2, 3] = [(1 : ℝ), 2, 3] := by
      simp [truncStep]
    rw [h]
    simp

/-- C2 (amended): a provided positive dimension below the native size
slices each vector to its first `d` components; `d = 0` (Python-falsy)
and `d` at least the native size leave the vectors unchanged; a negative
`d` follows Python slice semantics and removes the trailing `|d|`
components; normalization, when requested, happens after truncation, over
the truncated vectors. -/
theorem mrl_truncation_cases (d : Int) (rows : List (List ℝ)) (v : List ℝ) :
    (0 < d → d < (v.length : Int) → truncStep (some d) v = v.take d.toNat)
    ∧ ((v.length : Int) ≤ d → truncStep (some d) v = v)
    ∧ truncStep (some 0) v = v
    ∧ (d < 0 → truncStep (some d) v = v.take (v.length - (-d).toNat))
    ∧ postProcess (some d) true rows = (rows.map (truncStep (some d))).map fNormalize := by
  refine ⟨?_, ?_, ?_, ?_, rfl⟩
  · intro h0 hlt
    simp only [truncStep]
    rw [if_pos ⟨by omega, hlt⟩]
    simp only [pySliceTo]
    rw [if_pos (le_of_lt h0)]
  · intro h
    simp only [truncStep]
    rw [if_neg]
    rintro ⟨-, h2⟩
    omega
  · simp [truncStep]
  · intro h
    simp only [truncStep]
    rw [if_pos ⟨by omega, by omega⟩]
    simp only [pySliceTo]
    rw [if_neg (by omega)]

theorem mrl_truncation_cases_witness :
    truncStep (some 2) [(5 : ℝ), 6, 7] = ([(5 : ℝ), 6, 7]).take ((2 : Int)).toNat
    ∧ truncStep (some 0) [(5 : ℝ), 6, 7] = [(5 : ℝ), 6, 7] := by
  refine ⟨(mrl_truncation_cases 2 [] [(5 : ℝ), 6, 7]).1 (by norm_num) (by norm_num), ?_⟩
  exact (mrl_truncation_cases 0 [] [(5 : ℝ), 6, 7]).2.2.1

/-- C5: an item with neither text nor image yields the well-formed
two-role conversation whose user content is the single literal `"NULL"`
text block, and the embed loop raises no error for it (the hypothesis
records that `unicodedata` classifies `'.'` as punctuation). -/
theorem null_placeholder_conversation (isPunct : Char → Bool) (h : isPunct '.' = true) :
    format_model_input isPunct none none none =
      [⟨systemRole, [.text DEFAULT_INSTRUCTION]⟩, ⟨userRole, [.text nullText]⟩]
    ∧ ∀ model : ModelFn,
        embedOne isPunct model ⟨none, none⟩ = .ok (embed_single isPunct model none none) := by
  have hstrip : pyStrip DEFAULT_INSTRUCTION = DEFAULT_INSTRUCTION := by decide
  have hlast : DEFAULT_INSTRUCTION.getLast? = some '.' := by decide
  have hins : processInstruction isPunct DEFAULT_INSTRUCTION = DEFAULT_INSTRUCTION := by
    unfold processInstruction
    rw [hstrip]
    unfold appendPeriod
    rw [hlast]
    simp [h]
  constructor
  · simp [format_model_input, optTextTruthy, optImageTruthy, hins]
  · intro model
    rfl

theorem null_placeholder_conversation_witness :
    format_model_input (fun c => c == '.') none none none =
      [⟨systemRole, [.text DEFAULT_INSTRUCTION]⟩, ⟨userRole, [.text nullText]⟩] :=
  (null_placeholder_conversation (fun c => c == '.') (by decide)).1

/-- C6 counterexample: a malformed data URL (no comma, so the payload
split raises) makes the handler reply with status 500 — a server-fault
status, not a 400-class input-validation status. -/
theorem decode_failure_status_cex :
    embed_route (fun _ => false) (fun _ => ([], [])) true
        [⟨none, some "data:image/png;base64QUJD".toList⟩] true none =
      .error 500 "IndexError: list index out of range"
    ∧ ¬(400 ≤ 500 ∧ 500 < 500) := by
  exact ⟨rfl, by decide⟩

/-- C6 (amended): a decode failure in the embed loop is propagated to the
caller as an internal-error (500) response carrying the underlying
message — not as a client-error (400-class) response. -/
theorem decode_failure_internal_error (isPunct : Char → Bool) (model : ModelFn)
    (inputs : List EmbeddingInput) (normalize : Bool) (dims : Option Int) (msg : String)
    (hne : inputs ≠ [])
    (hfail : embedBatch isPunct model inputs = .error msg) :
    embed_route isPunct model true inputs normalize dims = .error 500 msg := by
  have hempty : inputs.isEmpty = false := by
    cases inputs with
    | nil => exact absurd rfl hne
    | cons a as => rfl
  simp [embed_route, embed, hempty, hfail, Except.map]

theorem decode_failure_internal_error_witness :
    embed_route (fun _ => false) (fun _ => ([], [])) true
        [⟨some "hello".toList, some "data:nocomma".toList⟩] false none =
      .error 500 "IndexError: list index out of range" :=
  decode_failure_internal_error _ _ _ _ _ _ (by simp) (by rfl)

lemma argmaxAux_of_le (xs : List Nat) : ∀ (i bi bv : Nat), (∀ x ∈ xs, x ≤ bv) →
    argmaxAux xs i bi bv = bi := by
  induction xs with
  | nil => intro i bi bv _; rfl
  | cons x xs ih =>
      intro i bi bv h
      have hx : ¬bv < x := Nat.not_lt.mpr (h x (List.mem_cons_self x xs))
      simp only [argmaxAux]
      rw [if_neg hx]
      exact ih _ _ _ (fun y hy => h y (List.mem_cons_of_mem x hy))

lemma argmaxAux_zeros_then_one (rest : List Nat) (hrest : ∀ x ∈ rest, x ≤ 1) :
    ∀ (p i bi : Nat), argmaxAux (List.replicate p 0 ++ 1 :: rest) i bi 0 = i + p := by
  intro p
  induction p with
  | zero =>
      intro i bi
      simp only [List.replicate, List.nil_append, argmaxAux]
      rw [if_pos (by omega)]
      rw [argmaxAux_of_le rest _ _ _ hrest]
      omega
  | succ p' ih =>
      intro i bi
      simp only [List.replicate_succ, List.cons_append, argmaxAux, List.append_eq]
      rw [if_neg (by omega)]
      rw [ih (i + 1) bi]
      omega

lemma torchArgmax_ones_zeros (p q : Nat) (hq : 0 < q) :
    torchArgmax (List.replicate q 1 ++ List.replicate p 0) = 0 := by
  obtain ⟨q', rfl⟩ : ∃ q'', q = q'' + 1 := ⟨q - 1, by omega⟩
  simp only [List.replicate_succ, List.cons_append, torchArgmax]
  apply argmaxAux_of_le
  intro x hx
  rcases List.mem_append.mp hx with h | h
  · rw [List.eq_of_mem_replicate h]
  · rw [List.eq_of_mem_replicate h]
    omega

lemma torchArgmax_zeros_ones (p q : Nat) (hq : 0 < q) :
    torchArgmax (List.replicate p 0 ++ List.replicate q 1) = p := by
  obtain ⟨q', rfl⟩ : ∃ q'', q = q'' + 1 := ⟨q - 1, by omega⟩
  have hrest : ∀ x ∈ List.replicate q' 1, x ≤ 1 := fun x hx => by
    rw [List.eq_of_mem_replicate hx]
  cases p with
  | zero =>
      simp only [List.replicate, List.nil_append, List.replicate_succ, torchArgmax]
      rw [argmaxAux_of_le _ _ _ _ hrest]
  | succ p' =>
      simp only [List.replicate_succ, List.cons_append, torchArgmax]
      rw [argmaxAux_zeros_then_one _ hrest p' 1 0]
      omega

lemma findIdx_ones_zeros (p q : Nat) (hq : 0 < q) :
    (List.replicate q 1 ++ List.replicate p 0).findIdx (fun x => x == 1) = 0 := by
  obtain ⟨q', rfl⟩ : ∃ q'', q = q'' + 1 := ⟨q - 1, by omega⟩
  simp [List.replicate_succ, List.findIdx_cons]

lemma findIdx_zeros_ones (p q : Nat) (hq : 0 < q) :
    (List.replicate p 0 ++ List.replicate q 1).findIdx (fun x => x == 1) = p := by
  induction p with
  | zero =>
      obtain ⟨q', rfl⟩ : ∃ q'', q = q'' + 1 := ⟨q - 1, by omega⟩
      simp [List.replicate_succ, List.findIdx_cons]
  | succ p' ih =>
      simp [List.replicate_succ, List.cons_append, List.findIdx_cons, ih]

lemma getD_replicate_of_lt {α : Type} (a d : α) :
    ∀ (q n : Nat), n < q → (List.replicate q a).getD n d = a := by
  intro q
  induction q with
  | zero => intro n h; omega
  | succ q' ih =>
      intro n h
      cases n with
      | zero => rfl
      | succ n' =>
          simp only [List.replicate_succ, List.getD_cons_succ]
          exact ih n' (by omega)

lemma getD_append_lt {α : Type} (l₁ l₂ : List α) (d : α) (n : Nat) (h : n < l₁.length) :
    (l₁ ++ l₂).getD n d = l₁.getD n d := by
  induction l₁ generalizing n with
  | nil => simp at h
  | cons a t ih =>
      cases n with
      | zero => rfl
      | succ n' =>
          simp only [List.cons_append, List.getD_cons_succ]
          have hn : n' < t.length := by
            simp only [List.length_cons] at h
            omega
          exact ih n' hn

lemma getD_append_ge {α : Type} (l₁ l₂ : List α) (d : α) (n : Nat) (h : l₁.length ≤ n) :
    (l₁ ++ l₂).getD n d = l₂.getD (n - l₁.length) d := by
  induction l₁ generalizing n with
  | nil => simp
  | cons a t ih =>
      cases n with
      | zero => simp at h
      | succ n' =>
          simp only [List.cons_append, List.getD_cons_succ, List.length_cons]
          have hn : t.length ≤ n' := by
            simp only [List.length_cons] at h
            omega
          rw [ih n' hn]
          congr 1
          omega

/-- C1: on a mask with one contiguous block of 1s at either end (or no
padding at all), `_pooling_last` picks, per batch row, the hidden vector
at the highest index whose mask value is 1, and that index equals
`sequence_length - k - 1` where `k` is the position of the first 1 in the
reversed mask. -/
theorem pooling_last_selects_last_valid {α : Type} (d : α) (hidden : List α)
    (p q : Nat) (mask : List Nat) (hq : 0 < q)
    (hmask : mask = List.replicate p 0 ++ List.replicate q 1
        ∨ mask = List.replicate q 1 ++ List.replicate p 0) :
    poolingLastRow d hidden mask = hidden.getD (poolingCol mask) d
    ∧ poolingCol mask < mask.length
    ∧ mask.getD (poolingCol mask) 0 = 1
    ∧ (∀ j, j < mask.length → mask.getD j 0 = 1 → j ≤ poolingCol mask)
    ∧ poolingCol mask = mask.length - mask.reverse.findIdx (fun x => x == 1) - 1 := by
  rcases hmask with rfl | rfl
  · -- left padding: zeros then ones
    have hlen : (List.replicate p 0 ++ List.replicate q 1).length = p + q := by simp
    have hrev : (List.replicate p 0 ++ List.replicate q 1).reverse =
        List.replicate q 1 ++ List.replicate p 0 := by
      simp [List.reverse_append]
    have hcol : poolingCol (List.replicate p 0 ++ List.replicate q 1) = p + q - 1 := by
      unfold poolingCol
      rw [hrev, torchArgmax_ones_zeros p q hq, hlen]
      omega
    refine ⟨rfl, ?_, ?_, ?_, ?_⟩
    · rw [hcol, hlen]
      omega
    · rw [hcol, getD_append_ge _ _ _ _ (by simp; omega)]
      simp only [List.length_replicate]
      exact getD_replicate_of_lt 1 0 q (p + q - 1 - p) (by omega)
    · intro j hj _
      rw [hlen] at hj
      rw [hcol]
      omega
    · rw [hcol, hrev, findIdx_ones_zeros p q hq, hlen]
      omega
  · -- right padding: ones then zeros
    have hlen : (List.replicate q 1 ++ List.replicate p 0).length = q + p := by simp
    have hrev : (List.replicate q 1 ++ List.replicate p 0).reverse =
        List.replicate p 0 ++ List.replicate q 1 := by
      simp [List.reverse_append]
    have hcol : poolingCol (List.replicate q 1 ++ List.replicate p 0) = q - 1 := by
      unfold poolingCol
      rw [hrev, torchArgmax_zeros_ones p q hq, hlen]
      omega
    refine ⟨rfl, ?_, ?_, ?_, ?_⟩
    · rw [hcol, hlen]
      omega
    · rw [hcol, getD_append_lt _ _ _ _ (by simp; omega)]
      exact getD_replicate_of_lt 1 0 q (q - 1) (by omega)
    · intro j hj hval
      rw [hlen] at hj
      rw [hcol]
      by_contra hlt
      push_neg at hlt
      have hqj : q ≤ j := by omega
      have hzero : (List.replicate q 1 ++ List.replicate p 0).getD j 0 = 0 := by
        rw [getD_append_ge _ _ _ _ (by simp; omega)]
        simp only [List.length_replicate]
        exact getD_replicate_of_lt 0 0 p (j - q) (by omega)
      rw [hval] at hzero
      omega
    · rw [hcol, hrev, findIdx_zeros_ones p q hq, hlen]
      omega

theorem pooling_last_selects_last_valid_witness :
    poolingLastRow (0 : Nat) [10, 20, 30] [0, 1, 1] =
      [10, 20, 30].getD (poolingCol [0, 1, 1]) 0
    ∧ ([0, 1, 1] : List Nat).getD (poolingCol [0, 1, 1]) 0 = 1 := by
  have h := pooling_last_selects_last_valid (0 : Nat) [10, 20, 30] 1 2 [0, 1, 1]
    (by norm_num) (Or.inl (by decide))
  exact ⟨h.1, h.2.2.1⟩

lemma sum_sq_nonneg (l : List ℝ) : 0 ≤ (l.map (fun x => x ^ 2)).sum := by
  apply List.sum_nonneg
  intro x hx
  obtain ⟨y, -, rfl⟩ := List.mem_map.mp hx
  positivity

lemma sum_map_div_sq (l : List ℝ) (c : ℝ) :
    (l.map (fun x => (x / c) ^ 2)).sum = (l.map (fun x => x ^ 2)).sum / c ^ 2 := by
  induction l with
  | nil => simp
  | cons a t ih =>
      simp only [List.map_cons, List.sum_cons, ih]
      rw [div_pow, div_add_div_same]

/-- C4 counterexample: the non-zero vector `[1e-13]` has norm below the
`1e-12` epsilon floor of `F.normalize`, so it is divided by the floor
rather than its own norm and the output norm is 1/10, not 1. -/
theorem normalize_tiny_vector_cex :
    (1 : ℝ) / 10 ^ 13 ≠ 0
    ∧ l2norm (fNormalize [(1 : ℝ) / 10 ^ 13]) ≠ 1 := by
  have hnorm : l2norm [(1 : ℝ) / 10 ^ 13] = 1 / 10 ^ 13 := by
    unfold l2norm
    simp only [List.map_cons, List.map_nil, List.sum_cons, List.sum_nil, add_zero]
    rw [Real.sqrt_sq (by positivity)]
  have hmax : max (l2norm [(1 : ℝ) / 10 ^ 13]) normEps = 1 / 10 ^ 12 := by
    rw [hnorm]
    unfold normEps
    exact max_eq_right (by norm_num)
  have hfn : fNormalize [(1 : ℝ) / 10 ^ 13] = [(1 : ℝ) / 10] := by
    unfold fNormalize
    rw [hmax]
    simp only [List.map_cons, List.map_nil]
    norm_num
  have hout : l2norm [(1 : ℝ) / 10] = 1 / 10 := by
    unfold l2norm
    simp only [List.map_cons, List.map_nil, List.sum_cons, List.sum_nil, add_zero]
    rw [Real.sqrt_sq (by norm_num)]
  constructor
  · norm_num
  · rw [hfn, hout]
    norm_num

/-- C4 (amended): every vector whose Euclidean norm is at least the
`1e-12` epsilon floor is scaled by its own norm to exact unit norm; the
scaling denominator is always positive (no division by zero, hence no
NaN), and the zero vector maps to the zero vector. -/
theorem normalization_unit_norm (v : List ℝ) (n : Nat) :
    (normEps ≤ l2norm v → l2norm (fNormalize v) = 1)
    ∧ 0 < max (l2norm v) normEps
    ∧ fNormalize (List.replicate n 0) = List.replicate n 0 := by
  have heps : (0 : ℝ) < normEps := by
    unfold normEps
    norm_num
  refine ⟨?_, lt_of_lt_of_le heps (le_max_right _ _), ?_⟩
  · intro h
    have hmax : max (l2norm v) normEps = l2norm v := max_eq_left h
    have hS : (0 : ℝ) ≤ (v.map (fun x => x ^ 2)).sum := sum_sq_nonneg v
    have hpos : 0 < l2norm v := lt_of_lt_of_le heps h
    have hSpos : 0 < (v.map (fun x => x ^ 2)).sum := by
      unfold l2norm at hpos
      exact Real.sqrt_pos.mp hpos
    have hsum : ((fNormalize v).map (fun x => x ^ 2)).sum =
        (v.map (fun x => x ^ 2)).sum / l2norm v ^ 2 := by
      unfold fNormalize
      rw [hmax, List.map_map]
      have hcomp : ((fun x => x ^ 2) ∘ fun x => x / l2norm v) =
          fun x => (x / l2norm v) ^ 2 := rfl
      rw [hcomp, sum_map_div_sq]
    have hsq : l2norm v ^ 2 = (v.map (fun x => x ^ 2)).sum := by
      unfold l2norm
      exact Real.sq_sqrt hS
    unfold l2norm
    rw [hsum, hsq, div_self (ne_of_gt hSpos), Real.sqrt_one]
  · unfold fNormalize
    rw [List.map_replicate, zero_div]

theorem normalization_unit_norm_witness :
    l2norm (fNormalize [(1 : ℝ)]) = 1
    ∧ fNormalize (List.replicate 2 (0 : ℝ)) = List.replicate 2 0 := by
  have h1 : l2norm [(1 : ℝ)] = 1 := by
    unfold l2norm
    simp only [List.map_cons, List.map_nil, List.sum_cons, List.sum_nil, add_zero, one_pow]
    exact Real.sqrt_one
  have h := normalization_unit_norm [(1 : ℝ)] 2
  refine ⟨h.1 ?_, h.2.2⟩
  rw [h1]
  unfold normEps
  norm_num
